import Mathlib

/-!
Verification development for the Dedup tool (Go, `src/main.go`).

The tool builds a name-indexed metadata catalog for each of two root paths,
intersects them by identifier with a size-only equality predicate, and
replaces each matched destination file by a symbolic link to the source file.

Embedding conventions:
* A filesystem path is a list of name components (`Path`); the Go code's
  `filepath.Join(p, name)` is `p ++ [name]` and `filepath.Base` is the last
  component.
* The filesystem is a tree (`Node`): regular files carry a size and a content
  (content is never inspected by the tool), directories carry a list of named
  entries, plus symlink and special nodes.  `os.Stat` is modelled as plain
  path resolution in the tree (no symlink following), `os.Remove` and
  `os.Symlink` as tree updates at a path.
* Go maps are association lists whose insertion overwrites the existing
  binding of a key (`insertA`), matching Go map assignment; catalogs produced
  by the tool therefore have no duplicate keys.
* Goroutine fan-out joined by a `sync.WaitGroup` is modelled by evaluating
  each task on the shared immutable snapshot (catalog building) or by folding
  the per-pair tasks in order (replacement); each replacement task is
  independent of the others' success or failure, as in the source.
-/

namespace Dedup

abbrev Path := List String

/-- Metadata recorded per regular file (src/main.go, `fileMetadata`). -/
structure fileMetadata where
  size : Nat
  path : Path
deriving DecidableEq, Repr

/-- Equality predicate on records (src/main.go, `fileMetadata.equals`):
path is intentionally ignored, only sizes are compared. -/
def fileMetadata.equals (fm other : fileMetadata) : Bool :=
  fm.size == other.size

/-- A matched pair (src/main.go, `duplicate`). -/
structure duplicate where
  source : Path
  destination : Path
deriving DecidableEq, Repr

abbrev Catalog := List (String × fileMetadata)

/-- Go map lookup on an association list (first binding wins). -/
def lookupA {α : Type} : List (String × α) → String → Option α
  | [], _ => none
  | (k, v) :: rest, k0 => if k = k0 then some v else lookupA rest k0

/-- Go map assignment `m[k] = v`: overwrite the existing binding or append. -/
def insertA {α : Type} : List (String × α) → String → α → List (String × α)
  | [], k0, v0 => [(k0, v0)]
  | (k, v) :: rest, k0, v0 =>
    if k = k0 then (k0, v0) :: rest else (k, v) :: insertA rest k0 v0

/-- src/main.go `findDuplicates`: for each source binding whose identifier is
also in the destination catalog and whose record passes `equals`, emit the
pair of recorded paths. -/
def findDuplicates : Catalog → Catalog → List duplicate
  | [], _ => []
  | (sourceName, sourceMetadata) :: rest, destFiles =>
    match lookupA destFiles sourceName with
    | some destMetadata =>
      if sourceMetadata.equals destMetadata then
        ⟨sourceMetadata.path, destMetadata.path⟩ :: findDuplicates rest destFiles
      else
        findDuplicates rest destFiles
    | none => findDuplicates rest destFiles

/-- `findDuplicates` instrumented to also record the identifier each emitted
pair was matched under (same traversal, same tests). -/
def matchedWith : Catalog → Catalog → List (String × duplicate)
  | [], _ => []
  | (sourceName, sourceMetadata) :: rest, destFiles =>
    match lookupA destFiles sourceName with
    | some destMetadata =>
      if sourceMetadata.equals destMetadata then
        (sourceName, ⟨sourceMetadata.path, destMetadata.path⟩) :: matchedWith rest destFiles
      else
        matchedWith rest destFiles
    | none => matchedWith rest destFiles

/-- Identifiers for which `findDuplicates` emits a pair. -/
def matchedIdents (a b : Catalog) : List String :=
  (matchedWith a b).map Prod.fst

/-- A filesystem tree: regular files (size and content), directories,
symbolic links, and special files (sockets, devices, ...). -/
inductive Node where
  | file (size : Nat) (content : List Nat)
  | dir (entries : List (String × Node))
  | symlink (target : Path)
  | special
deriving Repr

/-- First entry with the given name in a directory listing. -/
def lookupEntry : List (String × Node) → String → Option Node
  | [], _ => none
  | (m, sub) :: rest, n => if m = n then some sub else lookupEntry rest n

/-- Resolve a path in the tree (the model of `os.Stat` succeeding). -/
def resolve : Node → Path → Option Node
  | n, [] => some n
  | Node.dir entries, name :: rest =>
    match lookupEntry entries name with
    | some sub => resolve sub rest
    | none => none
  | _, _ :: _ => none

/-- The regular file visible at a path: its size and content, if any. -/
def fileAt (fs : Node) (p : Path) : Option (Nat × List Nat) :=
  match resolve fs p with
  | some (Node.file s c) => some (s, c)
  | _ => none

mutual
/-- Apply `f` to the entry list of the directory at path `pp`; fails when the
path does not resolve to a directory or `f` fails. -/
def parentUpdate : Node → Path → (List (String × Node) → Option (List (String × Node))) → Option Node
  | Node.dir entries, [], f => (f entries).map Node.dir
  | Node.dir entries, name :: rest, f => (puEntries entries name rest f).map Node.dir
  | _, _, _ => none

/-- Helper of `parentUpdate`: descend into the first entry named `name`. -/
def puEntries : List (String × Node) → String → Path → (List (String × Node) → Option (List (String × Node))) → Option (List (String × Node))
  | [], _, _, _ => none
  | (m, sub) :: es, name, rest, f =>
    if m = name then (parentUpdate sub rest f).map (fun sub2 => (m, sub2) :: es)
    else (puEntries es name rest f).map (fun es2 => (m, sub) :: es2)
end

/-- Whether `os.Remove` can delete this node: anything but a non-empty
directory (Go's `os.Remove` also deletes empty directories). -/
def removable : Node → Bool
  | Node.dir [] => true
  | Node.dir (_ :: _) => false
  | _ => true

/-- Delete the first entry with the given name, provided it is removable. -/
def entriesRemove : List (String × Node) → String → Option (List (String × Node))
  | [], _ => none
  | (m, sub) :: es, x =>
    if m = x then (if removable sub then some es else none)
    else (entriesRemove es x).map (fun es2 => (m, sub) :: es2)

/-- Model of `os.Remove path`. -/
def removeAt (fs : Node) (p : Path) : Option Node :=
  match p.getLast? with
  | none => none
  | some x => parentUpdate fs p.dropLast (fun entries => entriesRemove entries x)

/-- Model of creating a fresh node at `p` (fails when `p` already exists or
its parent is not a directory), used for `os.Symlink`. -/
def createAt (fs : Node) (p : Path) (node : Node) : Option Node :=
  match p.getLast? with
  | none => none
  | some x => parentUpdate fs p.dropLast (fun entries =>
      match lookupEntry entries x with
      | some _ => none
      | none => some (entries ++ [(x, node)]))

/-- The steps of `replaceWithSymlink`, in source order. -/
inductive RStep where
  | statSource
  | statDest
  | removeDest
  | linkDest
deriving DecidableEq, Repr

/-- Outcome of one replacement: `ok` is whether the Go function returned a
nil error, `fs` the filesystem afterwards, `trace` the syscalls attempted. -/
structure ReplaceOut where
  ok : Bool
  fs : Node
  trace : List RStep
deriving Repr

/-- src/main.go `replaceWithSymlink`: stat source, stat destination, remove
destination, create the symlink; each failure returns the wrapped error
immediately. -/
def replaceWithSymlink (fs : Node) (dup : duplicate) : ReplaceOut :=
  match resolve fs dup.source with
  | none => ⟨false, fs, [RStep.statSource]⟩
  | some _ =>
    match resolve fs dup.destination with
    | none => ⟨false, fs, [RStep.statSource, RStep.statDest]⟩
    | some _ =>
      match removeAt fs dup.destination with
      | none => ⟨false, fs, [RStep.statSource, RStep.statDest, RStep.removeDest]⟩
      | some fs1 =>
        match createAt fs1 dup.destination (Node.symlink dup.source) with
        | none => ⟨false, fs1, [RStep.statSource, RStep.statDest, RStep.removeDest, RStep.linkDest]⟩
        | some fs2 => ⟨true, fs2, [RStep.statSource, RStep.statDest, RStep.removeDest, RStep.linkDest]⟩

/-- The four replace steps in source order. -/
def replaceSteps : List RStep :=
  [RStep.statSource, RStep.statDest, RStep.removeDest, RStep.linkDest]

/-- Step 1 of replace succeeds: the source path stats. -/
def statSourceOk (fs : Node) (dup : duplicate) : Bool :=
  (resolve fs dup.source).isSome

/-- Step 2 of replace succeeds: the destination path stats. -/
def statDestOk (fs : Node) (dup : duplicate) : Bool :=
  (resolve fs dup.destination).isSome

/-- Step 3 of replace succeeds: the destination can be removed. -/
def removeDestOk (fs : Node) (dup : duplicate) : Bool :=
  (removeAt fs dup.destination).isSome

/-- Step 4 of replace succeeds: after the removal, the symlink can be made. -/
def linkDestOk (fs : Node) (dup : duplicate) : Bool :=
  match removeAt fs dup.destination with
  | some fs1 => (createAt fs1 dup.destination (Node.symlink dup.source)).isSome
  | none => false

/-- `filepath.Base`: the last path component. -/
def baseName (p : Path) : String :=
  p.getLastD ""

/-- Go map merge loop of src/main.go `getFiles`: insert every binding of the
inner catalog into the accumulator, overwriting on collision. -/
def mergeCatalog (acc inner : Catalog) : Catalog :=
  inner.foldl (fun a kv => insertA a kv.1 kv.2) acc

/-- Directory walk of src/main.go `getFiles`: subdirectory entries are
recursed into and their catalogs merged in (keyed by base name, so later
entries overwrite earlier ones with the same name); regular-file entries are
inserted keyed by their base name; symlink and special entries are skipped. -/
def walkDir (p : Path) (entries : List (String × Node)) (acc : Catalog) : Catalog :=
  match entries with
  | [] => acc
  | (name, Node.dir sub) :: rest =>
    walkDir p rest (mergeCatalog acc (walkDir (p ++ [name]) sub []))
  | (name, Node.file size _) :: rest =>
    walkDir p rest (insertA acc name ⟨size, p ++ [name]⟩)
  | (_, _) :: rest => walkDir p rest acc

/-- src/main.go `getFiles`: stat the root (hard error when it fails); a
regular-file root yields a singleton catalog keyed by its base name; a
directory root is walked; any other root yields an empty catalog. -/
def getFiles (fs : Node) (path : Path) : Except String Catalog :=
  match resolve fs path with
  | none => Except.error "error accessing path"
  | some (Node.file size _) => Except.ok [(baseName path, ⟨size, path⟩)]
  | some (Node.dir entries) => Except.ok (walkDir path entries [])
  | some _ => Except.ok []

/-- All regular files reachable from a directory listing by recursive
descent, as catalog records (base name, size, full path), in visit order. -/
def regRecords (p : Path) (entries : List (String × Node)) : List (String × fileMetadata) :=
  match entries with
  | [] => []
  | (name, Node.dir sub) :: rest => regRecords (p ++ [name]) sub ++ regRecords p rest
  | (name, Node.file size _) :: rest => (name, ⟨size, p ++ [name]⟩) :: regRecords p rest
  | (_, _) :: rest => regRecords p rest

/-- src/main.go `getFilesParallel`: the two `getFiles` goroutines run on the
shared immutable snapshot and are joined by `wg.Wait()`; then the source
error is inspected before the destination error. -/
def getFilesParallel (fs : Node) (sourcePath destPath : Path) : Except String (Catalog × Catalog) :=
  match getFiles fs sourcePath, getFiles fs destPath with
  | Except.error e, _ => Except.error e
  | Except.ok _, Except.error e => Except.error e
  | Except.ok s, Except.ok d => Except.ok (s, d)

/-- src/main.go `replaceConcurrently`: one task per pair, each reporting its
own success or failure and never stopping its siblings; the fan-out is
modelled as a fold, returning the final filesystem and one report
(pair, succeeded) per pair. -/
def replaceConcurrently (fs : Node) : List duplicate → Node × List (duplicate × Bool)
  | [] => (fs, [])
  | d :: rest =>
    let out := replaceWithSymlink fs d
    let step := replaceConcurrently out.fs rest
    (step.1, (d, out.ok) :: step.2)

/-- Result of a run: process exit code, final filesystem, and the per-pair
replacement reports printed by `replaceConcurrently`. -/
structure RunResult where
  exitCode : Nat
  fs : Node
  reports : List (duplicate × Bool)
deriving Repr

/-- src/main.go `main` after argument validation: build both catalogs in
parallel (exit 1 on failure of either, touching nothing), find duplicates,
replace them, exit 0. -/
def runDedup (fs : Node) (sourcePath destPath : Path) : RunResult :=
  match getFilesParallel fs sourcePath destPath with
  | Except.error _ => ⟨1, fs, []⟩
  | Except.ok (sourceFiles, destFiles) =>
    let dups := findDuplicates sourceFiles destFiles
    let step := replaceConcurrently fs dups
    ⟨0, step.1, step.2⟩

/-- Whether a directory listing contains an entry with the given name. -/
def hasName : List (String × Node) → String → Bool
  | [], _ => false
  | (m, _) :: es, x => (m = x) || hasName es x

mutual
/-- Well-formed filesystem: every directory's entry names are distinct
(true of any real filesystem). -/
def wfNode : Node → Bool
  | Node.dir es => wfEntries es
  | _ => true

/-- Well-formedness of a directory listing. -/
def wfEntries : List (String × Node) → Bool
  | [] => true
  | (m, sub) :: es => !(hasName es m) && wfNode sub && wfEntries es
end

/-- Boolean initial-segment test on paths. -/
def pathLeB : Path → Path → Bool
  | [], _ => true
  | _ :: _, [] => false
  | a :: as, b :: bs => (a = b) && pathLeB as bs

/-- Whether a catalog build succeeded. -/
def exceptOk {α : Type} : Except String α → Bool
  | Except.ok _ => true
  | Except.error _ => false

/-- Entry list of the two-root tree used to exercise the theorems. -/
def twoRootsEntries : List (String × Node) :=
  [("s", Node.dir [("f.bin", Node.file 5 [1])]),
   ("d", Node.dir [("f.bin", Node.file 5 [2])])]

/-- Concrete tree used to exercise the theorems: a source root and a
destination root, each holding one regular file named `f.bin` of size 5. -/
def fsTwoRoots : Node := Node.dir twoRootsEntries

/-- Entry list with two distinct regular files sharing the base name `f`
in different subdirectories. -/
def collideEntries : List (String × Node) :=
  [("a", Node.dir [("f", Node.file 1 [])]),
   ("b", Node.dir [("f", Node.file 2 [])])]

/-- Concrete tree refuting the per-regular-file record count. -/
def fsCollide : Node := Node.dir collideEntries

/-- Concrete one-file tree for the source-equals-destination replacement. -/
def fsSelf : Node := Node.dir [("f", Node.file 3 [7])]

/-- Concrete source catalog used by witnesses. -/
def catS : Catalog := [("a", ⟨4, ["s", "a"]⟩), ("b", ⟨10, ["s", "b"]⟩)]

/-- Concrete destination catalog used by witnesses. -/
def catD : Catalog := [("a", ⟨4, ["d", "a"]⟩), ("b", ⟨7, ["d", "b"]⟩)]

theorem replaceConcurrently_reports (dups : List duplicate) :
    ∀ fs : Node, ((replaceConcurrently fs dups).2.map Prod.fst) = dups := by
  induction dups with
  | nil => intro fs; rfl
  | cons d rest ih => intro fs; simp [replaceConcurrently, ih]

theorem findDuplicates_eq_map (src dst : Catalog) :
    findDuplicates src dst = (matchedWith src dst).map Prod.snd := by
  induction src with
  | nil => rfl
  | cons hd rest ih =>
    obtain ⟨k0, md0⟩ := hd
    simp only [findDuplicates, matchedWith]
    cases lookupA dst k0 with
    | none => exact ih
    | some dmd =>
      by_cases h : md0.equals dmd = true
      · simp [h, ih]
      · simp [eq_false_of_ne_true h, ih]

theorem mem_matchedWith (src dst : Catalog) (k : String) (d : duplicate) :
    (k, d) ∈ matchedWith src dst ↔
      ∃ md dmd, (k, md) ∈ src ∧ lookupA dst k = some dmd ∧
        md.equals dmd = true ∧ d = ⟨md.path, dmd.path⟩ := by
  induction src with
  | nil => simp [matchedWith]
  | cons hd rest ih =>
    obtain ⟨k0, md0⟩ := hd
    simp only [matchedWith]
    split
    next dmd0 hl =>
      by_cases he0 : md0.equals dmd0 = true
      · rw [if_pos he0]
        simp only [List.mem_cons]
        constructor
        · rintro (hhead | htail)
          · rw [Prod.mk.injEq] at hhead
            obtain ⟨hk, hdv⟩ := hhead
            subst hk
            exact ⟨md0, dmd0, Or.inl rfl, hl, he0, hdv⟩
          · obtain ⟨md, dmd, hm, hd2, he, hdv⟩ := ih.mp htail
            exact ⟨md, dmd, Or.inr hm, hd2, he, hdv⟩
        · rintro ⟨md, dmd, hm | hm, hd2, he, hdv⟩
          · rw [Prod.mk.injEq] at hm
            obtain ⟨hk, hmd⟩ := hm
            subst hk; subst hmd
            rw [hd2] at hl
            cases hl
            exact Or.inl (by rw [hdv])
          · exact Or.inr (ih.mpr ⟨md, dmd, hm, hd2, he, hdv⟩)
      · rw [if_neg he0]
        rw [ih]
        constructor
        · rintro ⟨md, dmd, hm, hd2, he, hdv⟩
          exact ⟨md, dmd, List.mem_cons_of_mem _ hm, hd2, he, hdv⟩
        · rintro ⟨md, dmd, hm, hd2, he, hdv⟩
          rcases List.mem_cons.mp hm with hhead | htail
          · rw [Prod.mk.injEq] at hhead
            obtain ⟨hk, hmd⟩ := hhead
            subst hk; subst hmd
            rw [hd2] at hl
            cases hl
            exact absurd he he0
          · exact ⟨md, dmd, htail, hd2, he, hdv⟩
    next hl =>
      rw [ih]
      constructor
      · rintro ⟨md, dmd, hm, hd2, he, hdv⟩
        exact ⟨md, dmd, List.mem_cons_of_mem _ hm, hd2, he, hdv⟩
      · rintro ⟨md, dmd, hm, hd2, he, hdv⟩
        rcases List.mem_cons.mp hm with hhead | htail
        · rw [Prod.mk.injEq] at hhead
          obtain ⟨hk, hmd⟩ := hhead
          subst hk
          rw [hd2] at hl
          cases hl
        · exact ⟨md, dmd, htail, hd2, he, hdv⟩

theorem lookupA_eq_of_mem {α : Type} (src : List (String × α)) (k : String) (v : α)
    (hnd : (src.map Prod.fst).Nodup) (hm : (k, v) ∈ src) : lookupA src k = some v := by
  induction src with
  | nil => cases hm
  | cons hd rest ih =>
    obtain ⟨k0, v0⟩ := hd
    simp only [List.map_cons, List.nodup_cons] at hnd
    rcases List.mem_cons.mp hm with hhead | htail
    · rw [Prod.mk.injEq] at hhead
      obtain ⟨hk, hv⟩ := hhead
      subst hk; subst hv
      simp [lookupA]
    · have hne : k0 ≠ k := by
        intro he
        exact hnd.1 (he ▸ (List.mem_map.mpr ⟨(k, v), htail, rfl⟩))
      simp only [lookupA, if_neg hne]
      exact ih hnd.2 htail

theorem mem_of_lookupA {α : Type} (src : List (String × α)) (k : String) (v : α)
    (hl : lookupA src k = some v) : (k, v) ∈ src := by
  induction src with
  | nil => cases hl
  | cons hd rest ih =>
    obtain ⟨k0, v0⟩ := hd
    by_cases he : k0 = k
    · subst he
      rw [lookupA, if_pos rfl, Option.some.injEq] at hl
      subst hl
      exact List.mem_cons_self _ _
    · rw [lookupA, if_neg he] at hl
      exact List.mem_cons_of_mem _ (ih hl)

theorem mem_matchedIdents (src dst : Catalog) (k : String)
    (hnd : (src.map Prod.fst).Nodup) :
    k ∈ matchedIdents src dst ↔
      ∃ a b, lookupA src k = some a ∧ lookupA dst k = some b ∧ a.size = b.size := by
  unfold matchedIdents
  constructor
  · intro hmem
    obtain ⟨p, hin, hk⟩ := List.mem_map.mp hmem
    obtain ⟨k1, d⟩ := p
    rw [show (k1, d).1 = k1 from rfl] at hk
    rw [hk] at hin
    obtain ⟨md, dmd, hm, hd2, he, _⟩ := (mem_matchedWith src dst k d).mp hin
    refine ⟨md, dmd, lookupA_eq_of_mem src k md hnd hm, hd2, ?_⟩
    simpa [fileMetadata.equals] using he
  · rintro ⟨a, b, ha, hb, hs⟩
    refine List.mem_map.mpr ⟨(k, ⟨a.path, b.path⟩), ?_, rfl⟩
    refine (mem_matchedWith src dst k _).mpr ⟨a, b, mem_of_lookupA src k a ha, hb, ?_, rfl⟩
    simp [fileMetadata.equals, hs]

/-- Claim C1: `findDuplicates` emits a pair for an identifier exactly when
the identifier is present in both catalogs and the two records have equal
size; the emitted pair consists of the two records' paths, so content plays
no role and path plays no role in the equality test. -/
theorem C1_match_iff_same_name_and_size (src dst : Catalog)
    (hnd : (src.map Prod.fst).Nodup) :
    findDuplicates src dst = (matchedWith src dst).map Prod.snd ∧
    (∀ k, (∃ d, (k, d) ∈ matchedWith src dst) ↔
      ∃ a b, lookupA src k = some a ∧ lookupA dst k = some b ∧ a.size = b.size) ∧
    (∀ k d, (k, d) ∈ matchedWith src dst →
      ∃ a b, lookupA src k = some a ∧ lookupA dst k = some b ∧
        d = ⟨a.path, b.path⟩) := by
  refine ⟨findDuplicates_eq_map src dst, fun k => ?_, fun k d hm => ?_⟩
  · constructor
    · rintro ⟨d, hd⟩
      obtain ⟨md, dmd, hmem, hl, he, _⟩ := (mem_matchedWith src dst k d).mp hd
      refine ⟨md, dmd, lookupA_eq_of_mem src k md hnd hmem, hl, ?_⟩
      simpa [fileMetadata.equals] using he
    · rintro ⟨a, b, ha, hb, hs⟩
      refine ⟨⟨a.path, b.path⟩, (mem_matchedWith src dst k _).mpr
        ⟨a, b, mem_of_lookupA src k a ha, hb, ?_, rfl⟩⟩
      simp [fileMetadata.equals, hs]
  · obtain ⟨md, dmd, hmem, hl, _, hdv⟩ := (mem_matchedWith src dst k d).mp hm
    exact ⟨md, dmd, lookupA_eq_of_mem src k md hnd hmem, hl, hdv⟩

/-- Witness for claim C1 at concrete catalogs. -/
theorem C1_match_iff_same_name_and_size_witness :
    ((catS.map Prod.fst).Nodup) ∧
    (findDuplicates catS catD = (matchedWith catS catD).map Prod.snd ∧
    (∀ k, (∃ d, (k, d) ∈ matchedWith catS catD) ↔
      ∃ a b, lookupA catS k = some a ∧ lookupA catD k = some b ∧ a.size = b.size) ∧
    (∀ k d, (k, d) ∈ matchedWith catS catD →
      ∃ a b, lookupA catS k = some a ∧ lookupA catD k = some b ∧
        d = ⟨a.path, b.path⟩)) :=
  ⟨by decide, C1_match_iff_same_name_and_size catS catD (by decide)⟩

/-- Claim C8: the set of identifiers matched by `findDuplicates` is the same
for `(A, B)` and `(B, A)`, the source and destination roles being swapped. -/
theorem C8_matched_idents_symmetric (A B : Catalog)
    (hA : (A.map Prod.fst).Nodup) (hB : (B.map Prod.fst).Nodup) :
    ∀ k, k ∈ matchedIdents A B ↔ k ∈ matchedIdents B A := by
  intro k
  rw [mem_matchedIdents A B k hA, mem_matchedIdents B A k hB]
  constructor
  · rintro ⟨a, b, ha, hb, hs⟩; exact ⟨b, a, hb, ha, hs.symm⟩
  · rintro ⟨b, a, hb, ha, hs⟩; exact ⟨a, b, ha, hb, hs.symm⟩

/-- Witness for claim C8 at concrete two-entry catalogs. -/
theorem C8_matched_idents_symmetric_witness :
    ((catS.map Prod.fst).Nodup) ∧ ((catD.map Prod.fst).Nodup) ∧
    (∀ k, k ∈ matchedIdents catS catD ↔ k ∈ matchedIdents catD catS) :=
  ⟨by decide, by decide, C8_matched_idents_symmetric catS catD (by decide) (by decide)⟩

/-- Claim C3: a replacement attempts the four steps stat source, stat
destination, remove destination, create symlink, in this order, each step
being attempted exactly when all previous steps succeeded, and it returns a
nil error exactly when all four steps succeed. -/
theorem C3_replace_four_steps (fs : Node) (dup : duplicate) :
    ((replaceWithSymlink fs dup).trace =
      if statSourceOk fs dup = false then [RStep.statSource]
      else if statDestOk fs dup = false then [RStep.statSource, RStep.statDest]
      else if removeDestOk fs dup = false then
        [RStep.statSource, RStep.statDest, RStep.removeDest]
      else replaceSteps) ∧
    ((replaceWithSymlink fs dup).ok =
      (statSourceOk fs dup && statDestOk fs dup && removeDestOk fs dup &&
        linkDestOk fs dup)) := by
  unfold replaceWithSymlink statSourceOk statDestOk removeDestOk linkDestOk replaceSteps
  cases hs : resolve fs dup.source with
  | none => simp [hs]
  | some ns =>
    cases hd : resolve fs dup.destination with
    | none => simp [hs, hd]
    | some nd =>
      cases hr : removeAt fs dup.destination with
      | none => simp [hs, hd, hr]
      | some fs1 =>
        cases hc : createAt fs1 dup.destination (Node.symlink dup.source) with
        | none => simp [hs, hd, hr, hc]
        | some fs2 => simp [hs, hd, hr, hc]

/-- Claim C10: when the stat of the source or of the destination fails, the
replacement reports an error and performs no filesystem mutation: the remove
and symlink steps are never attempted and the filesystem is unchanged. -/
theorem C10_stat_failure_no_mutation (fs : Node) (dup : duplicate)
    (h : statSourceOk fs dup = false ∨ statDestOk fs dup = false) :
    (replaceWithSymlink fs dup).ok = false ∧
    (replaceWithSymlink fs dup).fs = fs ∧
    RStep.removeDest ∉ (replaceWithSymlink fs dup).trace ∧
    RStep.linkDest ∉ (replaceWithSymlink fs dup).trace := by
  unfold replaceWithSymlink
  cases hs : resolve fs dup.source with
  | none => simp
  | some ns =>
    cases hd : resolve fs dup.destination with
    | none => simp
    | some nd =>
      exfalso
      rcases h with h | h
      · rw [statSourceOk, hs] at h; cases h
      · rw [statDestOk, hd] at h; cases h

/-- Witness for claim C10: a missing source path mutates nothing. -/
theorem C10_stat_failure_no_mutation_witness :
    (replaceWithSymlink (Node.dir []) ⟨["a"], ["b"]⟩).ok = false ∧
    (replaceWithSymlink (Node.dir []) ⟨["a"], ["b"]⟩).fs = Node.dir [] ∧
    RStep.removeDest ∉ (replaceWithSymlink (Node.dir []) ⟨["a"], ["b"]⟩).trace ∧
    RStep.linkDest ∉ (replaceWithSymlink (Node.dir []) ⟨["a"], ["b"]⟩).trace :=
  C10_stat_failure_no_mutation (Node.dir []) ⟨["a"], ["b"]⟩ (Or.inl rfl)

/-- Claim C9: a root that stats successfully but is neither a directory nor
a regular file (a socket or device node) yields a successful build with an
empty catalog. -/
theorem C9_special_root_empty_catalog (fs : Node) (p : Path)
    (h : resolve fs p = some Node.special) :
    getFiles fs p = Except.ok [] := by
  rw [getFiles, h]

/-- Witness for claim C9: the root itself is a special file. -/
theorem C9_special_root_empty_catalog_witness :
    getFiles (Node.dir [("sock", Node.special)]) ["sock"] = Except.ok [] :=
  C9_special_root_empty_catalog (Node.dir [("sock", Node.special)]) ["sock"] rfl

/-- Claim C4: when building the catalog of either root fails, the run exits
with code 1, the filesystem is untouched, and no replacement is attempted
(no per-pair report exists). -/
theorem C4_build_failure_aborts (fs : Node) (sourcePath destPath : Path)
    (h : exceptOk (getFiles fs sourcePath) = false ∨
      exceptOk (getFiles fs destPath) = false) :
    runDedup fs sourcePath destPath = ⟨1, fs, []⟩ := by
  unfold runDedup getFilesParallel
  cases hs : getFiles fs sourcePath with
  | error e => rfl
  | ok A =>
    cases hd : getFiles fs destPath with
    | error e => rfl
    | ok B =>
      exfalso
      rcases h with h | h
      · rw [hs] at h; cases h
      · rw [hd] at h; cases h

/-- Witness for claim C4: the source root does not exist. -/
theorem C4_build_failure_aborts_witness :
    runDedup (Node.dir []) ["missing"] [] = ⟨1, Node.dir [], []⟩ :=
  C4_build_failure_aborts (Node.dir []) ["missing"] [] (Or.inl rfl)

/-- Claim C6: when both catalogs build, the run exits 0 whatever the
replacement outcomes are, one report is emitted per matched pair, and every
pair is attempted regardless of other pairs' failures. -/
theorem C6_reports_and_exit_status (fs : Node) (sourcePath destPath : Path)
    (A B : Catalog) (hA : getFiles fs sourcePath = Except.ok A)
    (hB : getFiles fs destPath = Except.ok B) :
    (runDedup fs sourcePath destPath).exitCode = 0 ∧
    (runDedup fs sourcePath destPath).reports.map Prod.fst = findDuplicates A B ∧
    (∀ (fs0 : Node) (dups : List duplicate),
      ((replaceConcurrently fs0 dups).2.map Prod.fst) = dups) := by
  refine ⟨?_, ?_, fun fs0 dups => replaceConcurrently_reports dups fs0⟩
  · rw [runDedup, getFilesParallel, hA, hB]
  · rw [runDedup, getFilesParallel, hA, hB]
    exact replaceConcurrently_reports _ _

/-- Witness for claim C6 on the two-root tree. -/
theorem C6_reports_and_exit_status_witness :
    (runDedup fsTwoRoots ["s"] ["d"]).exitCode = 0 ∧
    (runDedup fsTwoRoots ["s"] ["d"]).reports.map Prod.fst =
      findDuplicates [("f.bin", ⟨5, ["s", "f.bin"]⟩)] [("f.bin", ⟨5, ["d", "f.bin"]⟩)] ∧
    (∀ (fs0 : Node) (dups : List duplicate),
      ((replaceConcurrently fs0 dups).2.map Prod.fst) = dups) :=
  C6_reports_and_exit_status fsTwoRoots ["s"] ["d"]
    [("f.bin", ⟨5, ["s", "f.bin"]⟩)] [("f.bin", ⟨5, ["d", "f.bin"]⟩)]
    (by simp [fsTwoRoots, getFiles, resolve, lookupEntry, walkDir, mergeCatalog, insertA, baseName])
    (by simp [fsTwoRoots, getFiles, resolve, lookupEntry, walkDir, mergeCatalog, insertA, baseName])

theorem resolve_dir_cons_some (entries : List (String × Node)) (name : String)
    (rest : Path) (sub : Node) (hl : lookupEntry entries name = some sub) :
    resolve (Node.dir entries) (name :: rest) = resolve sub rest := by
  simp [resolve, hl]

theorem resolve_dir_cons_none (entries : List (String × Node)) (name : String)
    (rest : Path) (hl : lookupEntry entries name = none) :
    resolve (Node.dir entries) (name :: rest) = none := by
  simp [resolve, hl]

theorem resolve_append (p q : Path) (fs : Node) :
    resolve fs (p ++ q) = (resolve fs p).bind (fun n => resolve n q) := by
  induction p generalizing fs with
  | nil => simp [resolve]
  | cons name rest ih =>
    cases fs with
    | dir entries =>
      cases hl : lookupEntry entries name with
      | none =>
        rw [List.cons_append, resolve_dir_cons_none _ _ _ hl,
          resolve_dir_cons_none _ _ _ hl]
        rfl
      | some sub =>
        rw [List.cons_append, resolve_dir_cons_some _ _ _ _ hl,
          resolve_dir_cons_some _ _ _ _ hl, ih]
    | file s c => simp [resolve]
    | symlink t => simp [resolve]
    | special => simp [resolve]

theorem resolve_cons_dir (w : Node) (m : String) (r : Path) (u : Node)
    (h : resolve w (m :: r) = some u) : ∃ es, w = Node.dir es := by
  cases w with
  | dir es => exact ⟨es, rfl⟩
  | file s c => simp [resolve] at h
  | symlink t => simp [resolve] at h
  | special => simp [resolve] at h

theorem pathLeB_refl (a : Path) : pathLeB a a = true := by
  induction a with
  | nil => rfl
  | cons x as ih => simp [pathLeB, ih]

theorem pathLeB_append (a r : Path) : pathLeB a (a ++ r) = true := by
  induction a with
  | nil => rfl
  | cons x as ih => simp [pathLeB, ih]

theorem eq_append_of_pathLeB (a : Path) : ∀ b, pathLeB a b = true → ∃ r, b = a ++ r := by
  induction a with
  | nil => exact fun b _ => ⟨b, rfl⟩
  | cons x as ih =>
    intro b h
    cases b with
    | nil => simp [pathLeB] at h
    | cons y bs =>
      simp only [pathLeB, Bool.and_eq_true, decide_eq_true_eq] at h
      obtain ⟨rfl, h2⟩ := h
      obtain ⟨r, rfl⟩ := ih bs h2
      exact ⟨r, rfl⟩

theorem puEntries_spec (es : List (String × Node)) (name : String) (rest : Path)
    (f : List (String × Node) → Option (List (String × Node)))
    (es2 : List (String × Node)) (h : puEntries es name rest f = some es2) :
    ∃ sub sub2, lookupEntry es name = some sub ∧ parentUpdate sub rest f = some sub2 ∧
      lookupEntry es2 name = some sub2 ∧
      ∀ m, m ≠ name → lookupEntry es2 m = lookupEntry es m := by
  induction es generalizing es2 with
  | nil => simp [puEntries] at h
  | cons hd tl ih =>
    obtain ⟨m0, sub0⟩ := hd
    by_cases hm : m0 = name
    · subst hm
      rw [puEntries, if_pos rfl, Option.map_eq_some'] at h
      obtain ⟨sub2, hpu, rfl⟩ := h
      refine ⟨sub0, sub2, ?_, hpu, ?_, ?_⟩
      · rw [lookupEntry, if_pos rfl]
      · rw [lookupEntry, if_pos rfl]
      · intro m hmne
        rw [lookupEntry, if_neg (fun he => hmne he.symm),
          lookupEntry, if_neg (fun he => hmne he.symm)]
    · rw [puEntries, if_neg hm, Option.map_eq_some'] at h
      obtain ⟨es3, hrec, rfl⟩ := h
      obtain ⟨sub, sub2, h1, h2, h3, h4⟩ := ih es3 hrec
      refine ⟨sub, sub2, ?_, h2, ?_, ?_⟩
      · rw [lookupEntry, if_neg hm]; exact h1
      · rw [lookupEntry, if_neg hm]; exact h3
      · intro m hmne
        by_cases hm0 : m0 = m
        · subst hm0; rw [lookupEntry, if_pos rfl, lookupEntry, if_pos rfl]
        · rw [lookupEntry, if_neg hm0, lookupEntry, if_neg hm0]; exact h4 m hmne

theorem puEntries_exists (es : List (String × Node)) (name : String) (rest : Path)
    (f : List (String × Node) → Option (List (String × Node))) (sub sub2 : Node)
    (h1 : lookupEntry es name = some sub) (h2 : parentUpdate sub rest f = some sub2) :
    ∃ es2, puEntries es name rest f = some es2 := by
  induction es with
  | nil => simp [lookupEntry] at h1
  | cons hd tl ih =>
    obtain ⟨m0, sub0⟩ := hd
    by_cases hm : m0 = name
    · subst hm
      rw [lookupEntry, if_pos rfl, Option.some.injEq] at h1
      subst h1
      rw [puEntries, if_pos rfl, h2]
      exact ⟨_, rfl⟩
    · rw [lookupEntry, if_neg hm] at h1
      obtain ⟨es3, h3⟩ := ih h1
      rw [puEntries, if_neg hm, h3]
      exact ⟨_, rfl⟩

theorem parentUpdate_spec (pp : Path) (fs fs' : Node)
    (f : List (String × Node) → Option (List (String × Node)))
    (h : parentUpdate fs pp f = some fs') :
    ∃ es es', resolve fs pp = some (Node.dir es) ∧ f es = some es' ∧
      resolve fs' pp = some (Node.dir es') := by
  induction pp generalizing fs fs' with
  | nil =>
    cases fs with
    | dir es =>
      rw [parentUpdate, Option.map_eq_some'] at h
      obtain ⟨es', hf, rfl⟩ := h
      exact ⟨es, es', rfl, hf, rfl⟩
    | file s c => simp [parentUpdate] at h
    | symlink t => simp [parentUpdate] at h
    | special => simp [parentUpdate] at h
  | cons name rest ih =>
    cases fs with
    | dir entries =>
      rw [parentUpdate, Option.map_eq_some'] at h
      obtain ⟨entries2, hpu, rfl⟩ := h
      obtain ⟨sub, sub2, hl, hrec, hl2, _⟩ := puEntries_spec entries name rest f entries2 hpu
      obtain ⟨es, es', h1, h2, h3⟩ := ih sub sub2 hrec
      refine ⟨es, es', ?_, h2, ?_⟩
      · rw [resolve_dir_cons_some _ _ _ _ hl]; exact h1
      · rw [resolve_dir_cons_some _ _ _ _ hl2]; exact h3
    | file s c => simp [parentUpdate] at h
    | symlink t => simp [parentUpdate] at h
    | special => simp [parentUpdate] at h

theorem parentUpdate_exists (pp : Path) (fs : Node)
    (f : List (String × Node) → Option (List (String × Node)))
    (es es' : List (String × Node))
    (h1 : resolve fs pp = some (Node.dir es)) (h2 : f es = some es') :
    ∃ fs', parentUpdate fs pp f = some fs' := by
  induction pp generalizing fs with
  | nil =>
    simp only [resolve, Option.some.injEq] at h1
    subst h1
    rw [parentUpdate, h2]
    exact ⟨_, rfl⟩
  | cons name rest ih =>
    obtain ⟨entries, rfl⟩ := resolve_cons_dir fs name rest _ h1
    cases hl : lookupEntry entries name with
    | none => rw [resolve_dir_cons_none _ _ _ hl] at h1; cases h1
    | some sub =>
      rw [resolve_dir_cons_some _ _ _ _ hl] at h1
      obtain ⟨fs2, hrec⟩ := ih sub h1
      obtain ⟨es2, hpu⟩ := puEntries_exists entries name rest f sub fs2 hl hrec
      rw [parentUpdate, hpu]
      exact ⟨_, rfl⟩

theorem parentUpdate_frame (pp : Path) (fs fs' : Node)
    (f : List (String × Node) → Option (List (String × Node)))
    (h : parentUpdate fs pp f = some fs') :
    ∀ q, pathLeB pp q = false → pathLeB q pp = false → resolve fs' q = resolve fs q := by
  induction pp generalizing fs fs' with
  | nil => intro q h1 h2; rw [pathLeB] at h1; cases h1
  | cons name rest ih =>
    intro q h1 h2
    cases fs with
    | dir entries =>
      rw [parentUpdate, Option.map_eq_some'] at h
      obtain ⟨entries2, hpu, rfl⟩ := h
      obtain ⟨sub, sub2, hl, hrec, hl2, hother⟩ := puEntries_spec entries name rest f entries2 hpu
      cases q with
      | nil => rw [pathLeB] at h2; cases h2
      | cons m qr =>
        by_cases hm : m = name
        · subst hm
          rw [resolve_dir_cons_some _ _ _ _ hl2, resolve_dir_cons_some _ _ _ _ hl]
          simp only [pathLeB, decide_eq_true_eq, Bool.and_eq_false_iff,
            decide_eq_false_iff_not] at h1 h2
          rcases h1 with h1 | h1
          · exact absurd trivial h1
          rcases h2 with h2 | h2
          · exact absurd trivial h2
          exact ih sub sub2 hrec qr h1 h2
        · have heq := hother m hm
          cases hLm : lookupEntry entries m with
          | none =>
            rw [resolve_dir_cons_none _ _ _ (heq.trans hLm),
              resolve_dir_cons_none _ _ _ hLm]
          | some w =>
            rw [resolve_dir_cons_some _ _ _ _ (heq.trans hLm),
              resolve_dir_cons_some _ _ _ _ hLm]
    | file s c => simp [parentUpdate] at h
    | symlink t => simp [parentUpdate] at h
    | special => simp [parentUpdate] at h

theorem entriesRemove_lookup_ne (es : List (String × Node)) (x : String)
    (es' : List (String × Node)) (h : entriesRemove es x = some es') :
    ∀ m, m ≠ x → lookupEntry es' m = lookupEntry es m := by
  induction es generalizing es' with
  | nil => simp [entriesRemove] at h
  | cons hd tl ih =>
    obtain ⟨m0, sub0⟩ := hd
    intro m hm
    by_cases hx : m0 = x
    · subst hx
      rw [entriesRemove, if_pos rfl] at h
      by_cases hr : removable sub0
      · rw [if_pos hr, Option.some.injEq] at h
        subst h
        rw [lookupEntry, if_neg (fun he => hm he.symm)]
      · rw [if_neg hr] at h; cases h
    · rw [entriesRemove, if_neg hx, Option.map_eq_some'] at h
      obtain ⟨es3, h3, rfl⟩ := h
      by_cases hm0 : m0 = m
      · subst hm0; rw [lookupEntry, if_pos rfl, lookupEntry, if_pos rfl]
      · rw [lookupEntry, if_neg hm0, lookupEntry, if_neg hm0]
        exact ih es3 h3 m hm

theorem entriesRemove_found (es : List (String × Node)) (x : String)
    (es' : List (String × Node)) (h : entriesRemove es x = some es') :
    ∃ sub, lookupEntry es x = some sub ∧ removable sub = true := by
  induction es generalizing es' with
  | nil => simp [entriesRemove] at h
  | cons hd tl ih =>
    obtain ⟨m0, sub0⟩ := hd
    by_cases hx : m0 = x
    · subst hx
      rw [entriesRemove, if_pos rfl] at h
      by_cases hr : removable sub0
      · exact ⟨sub0, by rw [lookupEntry, if_pos rfl], hr⟩
      · rw [if_neg hr] at h; cases h
    · rw [entriesRemove, if_neg hx, Option.map_eq_some'] at h
      obtain ⟨es3, h3, rfl⟩ := h
      obtain ⟨sub, h1, h2⟩ := ih es3 h3
      exact ⟨sub, by rw [lookupEntry, if_neg hx]; exact h1, h2⟩

theorem entriesRemove_exists (es : List (String × Node)) (x : String) (sub : Node)
    (h1 : lookupEntry es x = some sub) (h2 : removable sub = true) :
    ∃ es', entriesRemove es x = some es' := by
  induction es with
  | nil => simp [lookupEntry] at h1
  | cons hd tl ih =>
    obtain ⟨m0, sub0⟩ := hd
    by_cases hx : m0 = x
    · subst hx
      rw [lookupEntry, if_pos rfl, Option.some.injEq] at h1
      subst h1
      rw [entriesRemove, if_pos rfl, if_pos h2]
      exact ⟨tl, rfl⟩
    · rw [lookupEntry, if_neg hx] at h1
      obtain ⟨es3, h3⟩ := ih h1
      rw [entriesRemove, if_neg hx, h3]
      exact ⟨_, rfl⟩

theorem lookupEntry_of_hasName_false (es : List (String × Node)) (m : String)
    (h : hasName es m = false) : lookupEntry es m = none := by
  induction es with
  | nil => rfl
  | cons hd tl ih =>
    obtain ⟨m0, sub0⟩ := hd
    rw [hasName, Bool.or_eq_false_iff] at h
    obtain ⟨h1, h2⟩ := h
    rw [lookupEntry, if_neg (by simpa using h1)]
    exact ih h2

theorem entriesRemove_lookup_self (es : List (String × Node)) (x : String)
    (es' : List (String × Node)) (hwf : wfEntries es = true)
    (h : entriesRemove es x = some es') : lookupEntry es' x = none := by
  induction es generalizing es' with
  | nil => simp [entriesRemove] at h
  | cons hd tl ih =>
    obtain ⟨m0, sub0⟩ := hd
    rw [wfEntries, Bool.and_eq_true, Bool.and_eq_true] at hwf
    obtain ⟨⟨hfresh, _⟩, hwtl⟩ := hwf
    by_cases hx : m0 = x
    · subst hx
      rw [entriesRemove, if_pos rfl] at h
      by_cases hr : removable sub0
      · rw [if_pos hr, Option.some.injEq] at h
        subst h
        exact lookupEntry_of_hasName_false tl m0 (by simpa using hfresh)
      · rw [if_neg hr] at h; cases h
    · rw [entriesRemove, if_neg hx, Option.map_eq_some'] at h
      obtain ⟨es3, h3, rfl⟩ := h
      rw [lookupEntry, if_neg hx]
      exact ih es3 hwtl h3

theorem wfNode_lookupEntry (es : List (String × Node)) (m : String) (sub : Node)
    (hwf : wfEntries es = true) (hl : lookupEntry es m = some sub) :
    wfNode sub = true := by
  induction es with
  | nil => simp [lookupEntry] at hl
  | cons hd tl ih =>
    obtain ⟨m0, sub0⟩ := hd
    rw [wfEntries, Bool.and_eq_true, Bool.and_eq_true] at hwf
    obtain ⟨⟨_, hwsub⟩, hwtl⟩ := hwf
    by_cases hm : m0 = m
    · rw [lookupEntry, if_pos hm, Option.some.injEq] at hl
      subst hl; exact hwsub
    · rw [lookupEntry, if_neg hm] at hl
      exact ih hwtl hl

theorem wfNode_resolve (q : Path) (fs u : Node) (hwf : wfNode fs = true)
    (h : resolve fs q = some u) : wfNode u = true := by
  induction q generalizing fs with
  | nil => simp only [resolve, Option.some.injEq] at h; subst h; exact hwf
  | cons m qr ih =>
    obtain ⟨entries, rfl⟩ := resolve_cons_dir fs m qr u h
    cases hl : lookupEntry entries m with
    | none => rw [resolve_dir_cons_none _ _ _ hl] at h; cases h
    | some sub =>
      rw [resolve_dir_cons_some _ _ _ _ hl] at h
      have hwes : wfEntries entries = true := by rwa [wfNode] at hwf
      exact ih sub (wfNode_lookupEntry entries m sub hwes hl) h

theorem resolve_removable_cons (nd : Node) (hr : removable nd = true)
    (m : String) (qr : Path) : resolve nd (m :: qr) = none := by
  cases nd with
  | file s c => rfl
  | symlink t => rfl
  | special => rfl
  | dir es =>
    cases es with
    | nil => rw [resolve_dir_cons_none]; rfl
    | cons hd tl => rw [removable] at hr; cases hr

theorem lookupEntry_append_ne (es es2 : List (String × Node)) (m : String)
    (hne : lookupEntry es2 m = none) :
    lookupEntry (es ++ es2) m = lookupEntry es m := by
  induction es with
  | nil => simpa using hne
  | cons hd tl ih =>
    obtain ⟨m0, sub0⟩ := hd
    by_cases hm : m0 = m
    · rw [List.cons_append, lookupEntry, if_pos hm, lookupEntry, if_pos hm]
    · rw [List.cons_append, lookupEntry, if_neg hm, lookupEntry, if_neg hm]
      exact ih

theorem lookupEntry_append_self (es : List (String × Node)) (x : String) (nd : Node)
    (hne : lookupEntry es x = none) :
    lookupEntry (es ++ [(x, nd)]) x = some nd := by
  induction es with
  | nil => simp [lookupEntry]
  | cons hd tl ih =>
    obtain ⟨m0, sub0⟩ := hd
    by_cases hm : m0 = x
    · rw [lookupEntry, if_pos hm] at hne; cases hne
    · rw [lookupEntry, if_neg hm] at hne
      rw [List.cons_append, lookupEntry, if_neg hm]
      exact ih hne

theorem removeAt_concat (fs : Node) (pp : Path) (x : String) :
    removeAt fs (pp ++ [x]) = parentUpdate fs pp (fun es => entriesRemove es x) := by
  simp [removeAt]

theorem createAt_concat (fs : Node) (pp : Path) (x : String) (nd : Node) :
    createAt fs (pp ++ [x]) nd = parentUpdate fs pp (fun es =>
      match lookupEntry es x with
      | some _ => none
      | none => some (es ++ [(x, nd)])) := by
  simp [createAt]

theorem resolve_dir_single (es : List (String × Node)) (x : String) :
    resolve (Node.dir es) [x] = lookupEntry es x := by
  cases hL : lookupEntry es x with
  | none => rw [resolve_dir_cons_none _ _ _ hL]
  | some sub => rw [resolve_dir_cons_some _ _ _ _ hL]; simp [resolve]

theorem removeAt_frame (fs fs1 : Node) (d : Path) (hwf : wfNode fs = true)
    (h : removeAt fs d = some fs1) :
    ∀ p, p ≠ d → fileAt fs1 p = fileAt fs p := by
  intro p hp
  cases hx : d.getLast? with
  | none => rw [removeAt, hx] at h; cases h
  | some x =>
    have hd : d = d.dropLast ++ [x] := (List.dropLast_append_getLast? x hx).symm
    rw [hd, removeAt_concat] at h
    obtain ⟨es, es', hres, hrem, hres'⟩ := parentUpdate_spec d.dropLast fs fs1 _ h
    by_cases c1 : pathLeB d.dropLast p = true
    · obtain ⟨r, rfl⟩ := eq_append_of_pathLeB d.dropLast p c1
      cases r with
      | nil =>
        rw [List.append_nil]
        simp [fileAt, hres, hres']
      | cons m r1 =>
        by_cases hmx : m = x
        · subst hmx
          cases r1 with
          | nil => exact absurd (hd.symm) hp
          | cons m1 r2 =>
            obtain ⟨sub, hlsub, hrsub⟩ := entriesRemove_found es m es' hrem
            have hwes : wfEntries es = true := by
              have := wfNode_resolve d.dropLast fs _ hwf hres
              rwa [wfNode] at this
            have hx2 : lookupEntry es' m = none :=
              entriesRemove_lookup_self es m es' hwes hrem
            rw [fileAt, fileAt, resolve_append, resolve_append, hres, hres']
            simp only [Option.some_bind]
            rw [resolve_dir_cons_some _ _ _ _ hlsub, resolve_dir_cons_none _ _ _ hx2,
              resolve_removable_cons sub hrsub m1 r2]
        · have heq := entriesRemove_lookup_ne es x es' hrem m hmx
          rw [fileAt, fileAt, resolve_append, resolve_append, hres, hres']
          simp only [Option.some_bind]
          cases hLm : lookupEntry es m with
          | none =>
            rw [resolve_dir_cons_none _ _ _ (heq.trans hLm),
              resolve_dir_cons_none _ _ _ hLm]
          | some w =>
            rw [resolve_dir_cons_some _ _ _ _ (heq.trans hLm),
              resolve_dir_cons_some _ _ _ _ hLm]
    · by_cases c2 : pathLeB p d.dropLast = true
      · obtain ⟨r, hppr⟩ := eq_append_of_pathLeB p d.dropLast c2
        cases r with
        | nil =>
          exfalso
          rw [List.append_nil] at hppr
          rw [← hppr, pathLeB_refl] at c1
          exact c1 rfl
        | cons m r1 =>
          rw [hppr, resolve_append] at hres hres'
          obtain ⟨w, hw, hw2⟩ := Option.bind_eq_some.mp hres
          obtain ⟨w', hw', hw2'⟩ := Option.bind_eq_some.mp hres'
          obtain ⟨esw, rfl⟩ := resolve_cons_dir w m r1 _ hw2
          obtain ⟨esw', rfl⟩ := resolve_cons_dir w' m r1 _ hw2'
          simp [fileAt, hw, hw']
      · have := parentUpdate_frame d.dropLast fs fs1 _ h p
          (Bool.not_eq_true _ ▸ c1) (Bool.not_eq_true _ ▸ c2)
        rw [fileAt, fileAt, this]

theorem createAt_frame (fs fs2 : Node) (d : Path) (t : Path)
    (h : createAt fs d (Node.symlink t) = some fs2) :
    ∀ p, p ≠ d → fileAt fs2 p = fileAt fs p := by
  intro p hp
  cases hx : d.getLast? with
  | none => rw [createAt, hx] at h; cases h
  | some x =>
    have hd : d = d.dropLast ++ [x] := (List.dropLast_append_getLast? x hx).symm
    rw [hd, createAt_concat] at h
    obtain ⟨es, es', hres, hcr, hres'⟩ := parentUpdate_spec d.dropLast fs fs2 _ h
    have hcr2 : lookupEntry es x = none ∧ es' = es ++ [(x, Node.symlink t)] := by
      cases hL : lookupEntry es x with
      | none => rw [hL] at hcr; exact ⟨rfl, (Option.some.injEq _ _ ▸ hcr).symm⟩
      | some w => rw [hL] at hcr; cases hcr
    obtain ⟨hnone, rfl⟩ := hcr2
    by_cases c1 : pathLeB d.dropLast p = true
    · obtain ⟨r, rfl⟩ := eq_append_of_pathLeB d.dropLast p c1
      cases r with
      | nil =>
        rw [List.append_nil]
        simp [fileAt, hres, hres']
      | cons m r1 =>
        by_cases hmx : m = x
        · subst hmx
          cases r1 with
          | nil => exact absurd (hd.symm) hp
          | cons m1 r2 =>
            rw [fileAt, fileAt, resolve_append, resolve_append, hres, hres']
            simp only [Option.some_bind]
            rw [resolve_dir_cons_none _ _ _ hnone,
              resolve_dir_cons_some _ _ _ _ (lookupEntry_append_self es m _ hnone)]
            rfl
        · have heq : lookupEntry (es ++ [(x, Node.symlink t)]) m = lookupEntry es m := by
            refine lookupEntry_append_ne es _ m ?_
            rw [lookupEntry, if_neg (fun he => hmx he.symm)]
            rfl
          rw [fileAt, fileAt, resolve_append, resolve_append, hres, hres']
          simp only [Option.some_bind]
          cases hLm : lookupEntry es m with
          | none =>
            rw [resolve_dir_cons_none _ _ _ (heq.trans hLm),
              resolve_dir_cons_none _ _ _ hLm]
          | some w =>
            rw [resolve_dir_cons_some _ _ _ _ (heq.trans hLm),
              resolve_dir_cons_some _ _ _ _ hLm]
    · by_cases c2 : pathLeB p d.dropLast = true
      · obtain ⟨r, hppr⟩ := eq_append_of_pathLeB p d.dropLast c2
        cases r with
        | nil =>
          exfalso
          rw [List.append_nil] at hppr
          rw [← hppr, pathLeB_refl] at c1
          exact c1 rfl
        | cons m r1 =>
          rw [hppr, resolve_append] at hres hres'
          obtain ⟨w, hw, hw2⟩ := Option.bind_eq_some.mp hres
          obtain ⟨w', hw', hw2'⟩ := Option.bind_eq_some.mp hres'
          obtain ⟨esw, rfl⟩ := resolve_cons_dir w m r1 _ hw2
          obtain ⟨esw', rfl⟩ := resolve_cons_dir w' m r1 _ hw2'
          simp [fileAt, hw, hw']
      · have := parentUpdate_frame d.dropLast fs fs2 _ h p
          (Bool.not_eq_true _ ▸ c1) (Bool.not_eq_true _ ▸ c2)
        rw [fileAt, fileAt, this]

/-- Claim C5 (amended): on a well-formed filesystem, a replacement writes
only at the destination path — the regular file visible at every other path
is unchanged whether the replacement succeeds or fails — and in particular
the source file is untouched whenever the source path differs from the
destination path. -/
theorem C5_replace_writes_only_destination (fs : Node) (dup : duplicate)
    (hwf : wfNode fs = true) :
    (∀ p, p ≠ dup.destination →
      fileAt ((replaceWithSymlink fs dup).fs) p = fileAt fs p) ∧
    (dup.source ≠ dup.destination →
      fileAt ((replaceWithSymlink fs dup).fs) dup.source = fileAt fs dup.source) := by
  have main : ∀ p, p ≠ dup.destination →
      fileAt ((replaceWithSymlink fs dup).fs) p = fileAt fs p := by
    intro p hp
    rw [replaceWithSymlink]
    split
    · rfl
    split
    · rfl
    split
    · rfl
    next fs1 hr =>
      split
      next hc => exact removeAt_frame fs fs1 dup.destination hwf hr p hp
      next fs2 hc =>
        calc fileAt fs2 p = fileAt fs1 p :=
              createAt_frame fs1 fs2 dup.destination dup.source hc p hp
          _ = fileAt fs p := removeAt_frame fs fs1 dup.destination hwf hr p hp
  exact ⟨main, fun hne => main dup.source hne⟩

/-- Counterexample to claim C5 as stated: a pair whose source and destination
paths coincide (obtainable from overlapping root paths) replaces the source
file itself by a symlink — the replacement succeeds and the source file is
destroyed. -/
theorem C5_counterexample :
    (replaceWithSymlink fsSelf ⟨["f"], ["f"]⟩).ok = true ∧
    fileAt fsSelf (["f"] : Path) = some (3, [7]) ∧
    fileAt ((replaceWithSymlink fsSelf ⟨["f"], ["f"]⟩).fs) (["f"] : Path) = none := by
  refine ⟨?_, rfl, ?_⟩ <;>
    simp [replaceWithSymlink, fsSelf, resolve, lookupEntry, removeAt, createAt,
      parentUpdate, entriesRemove, removable, fileAt]

/-- Witness for the amended claim C5 on the two-root tree. -/
theorem C5_replace_writes_only_destination_witness :
    wfNode fsTwoRoots = true ∧
    ((∀ p, p ≠ (⟨["s", "f.bin"], ["d", "f.bin"]⟩ : duplicate).destination →
      fileAt ((replaceWithSymlink fsTwoRoots ⟨["s", "f.bin"], ["d", "f.bin"]⟩).fs) p =
        fileAt fsTwoRoots p) ∧
    ((⟨["s", "f.bin"], ["d", "f.bin"]⟩ : duplicate).source ≠
        (⟨["s", "f.bin"], ["d", "f.bin"]⟩ : duplicate).destination →
      fileAt ((replaceWithSymlink fsTwoRoots ⟨["s", "f.bin"], ["d", "f.bin"]⟩).fs)
          (⟨["s", "f.bin"], ["d", "f.bin"]⟩ : duplicate).source =
        fileAt fsTwoRoots (⟨["s", "f.bin"], ["d", "f.bin"]⟩ : duplicate).source)) :=
  ⟨rfl, C5_replace_writes_only_destination fsTwoRoots ⟨["s", "f.bin"], ["d", "f.bin"]⟩ rfl⟩

theorem removeAt_ok (fs : Node) (d : Path) (nd : Node) (hne : d ≠ [])
    (hres : resolve fs d = some nd) (hrm : removable nd = true) :
    ∃ fs1, removeAt fs d = some fs1 := by
  have hd : d = d.dropLast ++ [d.getLast hne] := (List.dropLast_append_getLast hne).symm
  rw [hd, resolve_append] at hres
  obtain ⟨w, hw, hw2⟩ := Option.bind_eq_some.mp hres
  obtain ⟨es, rfl⟩ := resolve_cons_dir w _ [] _ hw2
  rw [resolve_dir_single] at hw2
  obtain ⟨es', hrem⟩ := entriesRemove_exists es _ nd hw2 hrm
  obtain ⟨fs1, hpu⟩ := parentUpdate_exists d.dropLast fs
    (fun es0 => entriesRemove es0 (d.getLast hne)) es es' hw hrem
  refine ⟨fs1, ?_⟩
  rw [hd, removeAt_concat]
  exact hpu

theorem createAt_after_remove (fs fs1 : Node) (d : Path) (t : Path)
    (hwf : wfNode fs = true) (hr : removeAt fs d = some fs1) :
    ∃ fs2, createAt fs1 d (Node.symlink t) = some fs2 ∧
      resolve fs2 d = some (Node.symlink t) := by
  cases hx : d.getLast? with
  | none => rw [removeAt, hx] at hr; cases hr
  | some x =>
    have hd : d = d.dropLast ++ [x] := (List.dropLast_append_getLast? x hx).symm
    rw [hd, removeAt_concat] at hr
    obtain ⟨es, es', hres, hrem, hres'⟩ := parentUpdate_spec d.dropLast fs fs1 _ hr
    have hwes : wfEntries es = true := by
      have := wfNode_resolve d.dropLast fs _ hwf hres
      rwa [wfNode] at this
    have hnone : lookupEntry es' x = none := entriesRemove_lookup_self es x es' hwes hrem
    have hf2 : (match lookupEntry es' x with
        | some _ => none
        | none => some (es' ++ [(x, Node.symlink t)])) =
        some (es' ++ [(x, Node.symlink t)]) := by
      rw [hnone]
    obtain ⟨fs2, hpu2⟩ :=
      parentUpdate_exists d.dropLast fs1
        (fun es0 => match lookupEntry es0 x with
          | some _ => none
          | none => some (es0 ++ [(x, Node.symlink t)]))
        es' (es' ++ [(x, Node.symlink t)]) hres' hf2
    have hcr : createAt fs1 d (Node.symlink t) = some fs2 := by
      rw [hd, createAt_concat]
      exact hpu2
    refine ⟨fs2, hcr, ?_⟩
    obtain ⟨es2, es2', hres2, hf2', hres2'⟩ := parentUpdate_spec d.dropLast fs1 fs2 _ hpu2
    rw [hres'] at hres2
    have hes : es' = es2 := by
      have h1 := Option.some.inj hres2
      injection h1
    subst hes
    rw [hnone] at hf2'
    have hes2 : es' ++ [(x, Node.symlink t)] = es2' := Option.some.inj hf2'
    subst hes2
    rw [hd, resolve_append, hres2']
    simp only [Option.some_bind]
    rw [resolve_dir_single, lookupEntry_append_self es' x _ hnone]

/-- Claim C7: when each root resolves to a regular file named `f.bin` and
both files have the same size, the matcher emits exactly one pair and the
run performs exactly one successful replacement: the destination becomes a
symlink to the source and the source file is untouched. -/
theorem C7_single_file_roots (fs : Node) (sourcePath destPath : Path)
    (n : Nat) (c c2 : List Nat) (hwf : wfNode fs = true)
    (hs : resolve fs sourcePath = some (Node.file n c))
    (hdst : resolve fs destPath = some (Node.file n c2))
    (hbs : baseName sourcePath = "f.bin") (hbd : baseName destPath = "f.bin")
    (hne : sourcePath ≠ destPath) :
    getFiles fs sourcePath = Except.ok [("f.bin", ⟨n, sourcePath⟩)] ∧
    getFiles fs destPath = Except.ok [("f.bin", ⟨n, destPath⟩)] ∧
    findDuplicates [("f.bin", ⟨n, sourcePath⟩)] [("f.bin", ⟨n, destPath⟩)] =
      [⟨sourcePath, destPath⟩] ∧
    (runDedup fs sourcePath destPath).exitCode = 0 ∧
    (runDedup fs sourcePath destPath).reports = [(⟨sourcePath, destPath⟩, true)] ∧
    resolve ((runDedup fs sourcePath destPath).fs) destPath =
      some (Node.symlink sourcePath) ∧
    fileAt ((runDedup fs sourcePath destPath).fs) sourcePath = some (n, c) := by
  have hgs : getFiles fs sourcePath = Except.ok [("f.bin", ⟨n, sourcePath⟩)] := by
    simp only [getFiles, hs, hbs]
  have hgd : getFiles fs destPath = Except.ok [("f.bin", ⟨n, destPath⟩)] := by
    simp only [getFiles, hdst, hbd]
  have hfd : findDuplicates [("f.bin", ⟨n, sourcePath⟩)] [("f.bin", ⟨n, destPath⟩)] =
      [⟨sourcePath, destPath⟩] := by
    simp [findDuplicates, lookupA, fileMetadata.equals]
  have hdne : destPath ≠ [] := by
    intro h
    rw [h] at hbd
    exact absurd hbd (by decide)
  obtain ⟨fs1, hr⟩ := removeAt_ok fs destPath (Node.file n c2) hdne hdst rfl
  obtain ⟨fs2, hc, hres2⟩ := createAt_after_remove fs fs1 destPath sourcePath hwf hr
  have hrw : replaceWithSymlink fs ⟨sourcePath, destPath⟩ = ⟨true, fs2, replaceSteps⟩ := by
    simp only [replaceWithSymlink, replaceSteps, hs, hdst, hr, hc]
  have hrun : runDedup fs sourcePath destPath = ⟨0, fs2, [(⟨sourcePath, destPath⟩, true)]⟩ := by
    simp [runDedup, getFilesParallel, hgs, hgd, hfd, replaceConcurrently, hrw]
  refine ⟨hgs, hgd, hfd, by rw [hrun], by rw [hrun], ?_, ?_⟩
  · rw [hrun]
    exact hres2
  · rw [hrun]
    have h1 : fileAt fs2 sourcePath = fileAt fs1 sourcePath :=
      createAt_frame fs1 fs2 destPath sourcePath hc sourcePath hne
    have h2 : fileAt fs1 sourcePath = fileAt fs sourcePath :=
      removeAt_frame fs fs1 destPath hwf hr sourcePath hne
    rw [show (⟨0, fs2, [(⟨sourcePath, destPath⟩, true)]⟩ : RunResult).fs = fs2 from rfl,
      h1, h2, fileAt, hs]

/-- Witness for claim C7 on the two-root tree. -/
theorem C7_single_file_roots_witness :
    getFiles fsTwoRoots ["s", "f.bin"] =
      Except.ok [("f.bin", ⟨5, ["s", "f.bin"]⟩)] ∧
    getFiles fsTwoRoots ["d", "f.bin"] =
      Except.ok [("f.bin", ⟨5, ["d", "f.bin"]⟩)] ∧
    findDuplicates [("f.bin", ⟨5, ["s", "f.bin"]⟩)] [("f.bin", ⟨5, ["d", "f.bin"]⟩)] =
      [⟨["s", "f.bin"], ["d", "f.bin"]⟩] ∧
    (runDedup fsTwoRoots ["s", "f.bin"] ["d", "f.bin"]).exitCode = 0 ∧
    (runDedup fsTwoRoots ["s", "f.bin"] ["d", "f.bin"]).reports =
      [(⟨["s", "f.bin"], ["d", "f.bin"]⟩, true)] ∧
    resolve ((runDedup fsTwoRoots ["s", "f.bin"] ["d", "f.bin"]).fs) ["d", "f.bin"] =
      some (Node.symlink ["s", "f.bin"]) ∧
    fileAt ((runDedup fsTwoRoots ["s", "f.bin"] ["d", "f.bin"]).fs) ["s", "f.bin"] =
      some (5, [1]) :=
  C7_single_file_roots fsTwoRoots ["s", "f.bin"] ["d", "f.bin"] 5 [1] [2]
    rfl rfl rfl rfl rfl (by decide)

theorem lookupA_insertA {α : Type} (m : List (String × α)) (k : String) (v : α)
    (k2 : String) :
    lookupA (insertA m k v) k2 = if k = k2 then some v else lookupA m k2 := by
  induction m with
  | nil => rfl
  | cons hd tl ih =>
    obtain ⟨k1, v1⟩ := hd
    by_cases h1 : k1 = k
    · subst h1
      rw [insertA, if_pos rfl]
      by_cases h2 : k1 = k2
      · subst h2; rw [lookupA, if_pos rfl, if_pos rfl]
      · rw [lookupA, if_neg h2, if_neg h2, lookupA, if_neg h2]
    · rw [insertA, if_neg h1]
      by_cases h2 : k1 = k2
      · subst h2
        rw [lookupA, if_pos rfl, lookupA, if_pos rfl,
          if_neg (fun he => h1 he.symm)]
      · rw [lookupA, if_neg h2, lookupA, if_neg h2, ih]

theorem mem_keys_insertA {α : Type} (m : List (String × α)) (k : String) (v : α)
    (k2 : String) :
    k2 ∈ (insertA m k v).map Prod.fst ↔ k2 = k ∨ k2 ∈ m.map Prod.fst := by
  induction m with
  | nil => simp [insertA]
  | cons hd tl ih =>
    obtain ⟨k1, v1⟩ := hd
    by_cases h1 : k1 = k
    · subst h1
      rw [insertA, if_pos rfl]
      simp only [List.map_cons, List.mem_cons]
      tauto
    · rw [insertA, if_neg h1]
      simp only [List.map_cons, List.mem_cons] at ih ⊢
      tauto

theorem nodup_keys_insertA {α : Type} (m : List (String × α)) (k : String) (v : α)
    (hnd : (m.map Prod.fst).Nodup) : ((insertA m k v).map Prod.fst).Nodup := by
  induction m with
  | nil => simp [insertA]
  | cons hd tl ih =>
    obtain ⟨k1, v1⟩ := hd
    simp only [List.map_cons, List.nodup_cons] at hnd
    by_cases h1 : k1 = k
    · subst h1
      rw [insertA, if_pos rfl]
      simp only [List.map_cons, List.nodup_cons]
      exact hnd
    · rw [insertA, if_neg h1]
      simp only [List.map_cons, List.nodup_cons]
      refine ⟨fun hm => ?_, ih hnd.2⟩
      rcases (mem_keys_insertA tl k v k1).mp hm with he | hm2
      · exact h1 he
      · exact hnd.1 hm2

theorem lookupA_mergeCatalog_isSome (inner : Catalog) :
    ∀ acc k, (lookupA (mergeCatalog acc inner) k).isSome = true ↔
      (lookupA acc k).isSome = true ∨ (lookupA inner k).isSome = true := by
  induction inner with
  | nil => intro acc k; simp [mergeCatalog, lookupA]
  | cons hd tl ih =>
    intro acc k
    obtain ⟨k0, v0⟩ := hd
    have hstep : mergeCatalog acc ((k0, v0) :: tl) = mergeCatalog (insertA acc k0 v0) tl := rfl
    rw [hstep, ih]
    rw [lookupA_insertA]
    by_cases h0 : k0 = k
    · subst h0
      rw [lookupA, if_pos rfl]
      simp
    · rw [lookupA, if_neg h0, if_neg h0]

theorem lookupA_mergeCatalog_mem (inner : Catalog) :
    ∀ acc k md, lookupA (mergeCatalog acc inner) k = some md →
      lookupA acc k = some md ∨ (k, md) ∈ inner := by
  induction inner with
  | nil => intro acc k md h; exact Or.inl h
  | cons hd tl ih =>
    intro acc k md h
    obtain ⟨k0, v0⟩ := hd
    have hstep : mergeCatalog acc ((k0, v0) :: tl) = mergeCatalog (insertA acc k0 v0) tl := rfl
    rw [hstep] at h
    rcases ih _ k md h with h2 | h2
    · rw [lookupA_insertA] at h2
      by_cases h0 : k0 = k
      · rw [if_pos h0, Option.some.injEq] at h2
        subst h2
        subst h0
        exact Or.inr (List.mem_cons_self _ _)
      · rw [if_neg h0] at h2
        exact Or.inl h2
    · exact Or.inr (List.mem_cons_of_mem _ h2)

theorem nodup_keys_mergeCatalog (inner : Catalog) :
    ∀ acc, ((acc.map Prod.fst).Nodup) →
      ((mergeCatalog acc inner).map Prod.fst).Nodup := by
  induction inner with
  | nil => intro acc h; exact h
  | cons hd tl ih =>
    intro acc h
    obtain ⟨k0, v0⟩ := hd
    exact ih _ (nodup_keys_insertA acc k0 v0 h)

theorem walkDir_nodup_keys (p : Path) (entries : List (String × Node)) (acc : Catalog) :
    (acc.map Prod.fst).Nodup → ((walkDir p entries acc).map Prod.fst).Nodup := by
  induction p, entries, acc using walkDir.induct with
  | case1 p acc => intro h; rw [walkDir]; exact h
  | case2 p acc name sub rest ih1 ih2 =>
    intro h
    rw [walkDir]
    exact ih2 (nodup_keys_mergeCatalog _ _ h)
  | case3 p acc name size c rest ih =>
    intro h
    rw [walkDir]
    exact ih (nodup_keys_insertA _ _ _ h)
  | case4 p acc name nd rest hnd hnf ih =>
    intro h
    cases nd with
    | dir sub => exact absurd rfl (hnd sub)
    | file size c => exact absurd rfl (hnf size c)
    | symlink t => simp only [walkDir]; exact ih h
    | special => simp only [walkDir]; exact ih h

theorem walkDir_lookup_isSome (p : Path) (entries : List (String × Node)) (acc : Catalog) :
    ∀ k, (lookupA (walkDir p entries acc) k).isSome = true ↔
      (lookupA acc k).isSome = true ∨ k ∈ (regRecords p entries).map Prod.fst := by
  induction p, entries, acc using walkDir.induct with
  | case1 p acc => intro k; rw [walkDir, regRecords]; simp
  | case2 p acc name sub rest ih1 ih2 =>
    intro k
    rw [walkDir, regRecords, ih2 k, lookupA_mergeCatalog_isSome, ih1 k]
    simp only [lookupA, Option.isSome_none, Bool.false_eq_true, false_or,
      List.map_append, List.mem_append]
    tauto
  | case3 p acc name size c rest ih =>
    intro k
    rw [walkDir, regRecords, ih k, lookupA_insertA]
    by_cases hk : name = k
    · subst hk
      simp
    · rw [if_neg hk]
      simp only [List.map_cons, List.mem_cons]
      constructor
      · rintro (h | h)
        · exact Or.inl h
        · exact Or.inr (Or.inr h)
      · rintro (h | h | h)
        · exact Or.inl h
        · exact absurd h.symm hk
        · exact Or.inr h
  | case4 p acc name nd rest hnd hnf ih =>
    intro k
    cases nd with
    | dir sub => exact absurd rfl (hnd sub)
    | file size c => exact absurd rfl (hnf size c)
    | symlink t => simp only [walkDir, regRecords]; exact ih k
    | special => simp only [walkDir, regRecords]; exact ih k

theorem walkDir_lookup_mem (p : Path) (entries : List (String × Node)) (acc : Catalog) :
    ∀ k md, lookupA (walkDir p entries acc) k = some md →
      lookupA acc k = some md ∨ (k, md) ∈ regRecords p entries := by
  induction p, entries, acc using walkDir.induct with
  | case1 p acc => intro k md h; rw [walkDir] at h; exact Or.inl h
  | case2 p acc name sub rest ih1 ih2 =>
    intro k md h
    rw [walkDir] at h
    rcases ih2 k md h with h2 | h2
    · rcases lookupA_mergeCatalog_mem _ _ _ _ h2 with h3 | h3
      · exact Or.inl h3
      · have hnd : ((walkDir (p ++ [name]) sub []).map Prod.fst).Nodup :=
          walkDir_nodup_keys _ _ _ (by simp)
        have hlk : lookupA (walkDir (p ++ [name]) sub []) k = some md :=
          lookupA_eq_of_mem _ _ _ hnd h3
        rcases ih1 k md hlk with h4 | h4
        · exact absurd h4 (by simp [lookupA])
        · rw [regRecords]
          exact Or.inr (List.mem_append.mpr (Or.inl h4))
    · rw [regRecords]
      exact Or.inr (List.mem_append.mpr (Or.inr h2))
  | case3 p acc name size c rest ih =>
    intro k md h
    rw [walkDir] at h
    rcases ih k md h with h2 | h2
    · rw [lookupA_insertA] at h2
      by_cases hk : name = k
      · rw [if_pos hk, Option.some.injEq] at h2
        subst h2
        subst hk
        rw [regRecords]
        exact Or.inr (List.mem_cons_self _ _)
      · rw [if_neg hk] at h2
        exact Or.inl h2
    · rw [regRecords]
      exact Or.inr (List.mem_cons_of_mem _ h2)
  | case4 p acc name nd rest hnd hnf ih =>
    intro k md h
    cases nd with
    | dir sub => exact absurd rfl (hnd sub)
    | file size c => exact absurd rfl (hnf size c)
    | symlink t =>
      simp only [walkDir] at h
      simp only [regRecords]
      exact ih k md h
    | special =>
      simp only [walkDir] at h
      simp only [regRecords]
      exact ih k md h

/-- Claim C2 (amended): for a directory root, the catalog has no duplicate
identifiers and contains a record for an identifier exactly when some regular
file with that base name is reachable by recursive descent (directories,
symlinks and special files contribute no record), and every record is the
base name, size and full path of a reachable regular file.  A base name
carried by several reachable regular files yields a single record (the
later-visited file silently overwrites the earlier), so the catalog does not
have one record per regular file. -/
theorem C2_build_catalog_keys (fs : Node) (path : Path)
    (entries : List (String × Node))
    (h : resolve fs path = some (Node.dir entries)) :
    getFiles fs path = Except.ok (walkDir path entries []) ∧
    ((walkDir path entries []).map Prod.fst).Nodup ∧
    (∀ k, (lookupA (walkDir path entries []) k).isSome = true ↔
      k ∈ (regRecords path entries).map Prod.fst) ∧
    (∀ k md, lookupA (walkDir path entries []) k = some md →
      (k, md) ∈ regRecords path entries) := by
  refine ⟨by simp only [getFiles, h], walkDir_nodup_keys _ _ _ (by simp), fun k => ?_, ?_⟩
  · rw [walkDir_lookup_isSome]
    simp [lookupA]
  · intro k md hlk
    rcases walkDir_lookup_mem _ _ _ k md hlk with h2 | h2
    · exact absurd h2 (by simp [lookupA])
    · exact h2

/-- Witness for the amended claim C2 on the two-root tree. -/
theorem C2_build_catalog_keys_witness :
    getFiles fsTwoRoots [] = Except.ok (walkDir [] twoRootsEntries []) ∧
    ((walkDir [] twoRootsEntries []).map Prod.fst).Nodup ∧
    (∀ k, (lookupA (walkDir [] twoRootsEntries []) k).isSome = true ↔
      k ∈ (regRecords [] twoRootsEntries).map Prod.fst) ∧
    (∀ k md, lookupA (walkDir [] twoRootsEntries []) k = some md →
      (k, md) ∈ regRecords [] twoRootsEntries) :=
  C2_build_catalog_keys fsTwoRoots [] twoRootsEntries rfl

/-- Counterexample to claim C2 as stated: two regular files named `f` in
different subdirectories are both reachable, but the catalog built for the
root holds a single record (the later entry overwrote the earlier), so the
catalog does not contain exactly one record per reachable regular file. -/
theorem C2_counterexample :
    getFiles fsCollide [] = Except.ok [("f", ⟨2, ["b", "f"]⟩)] ∧
    (regRecords [] collideEntries).length = 2 ∧
    ¬(∀ cat, getFiles fsCollide [] = Except.ok cat →
        cat.length = (regRecords [] collideEntries).length) := by
  have h1 : getFiles fsCollide [] = Except.ok [("f", ⟨2, ["b", "f"]⟩)] := by
    simp [getFiles, fsCollide, collideEntries, resolve, walkDir, mergeCatalog, insertA]
  refine ⟨h1, by simp [collideEntries, regRecords], fun hall => ?_⟩
  have := hall [("f", ⟨2, ["b", "f"]⟩)] h1
  simp [collideEntries, regRecords] at this

end Dedup
